import Mathlib

/-!
# CartPole-NEAT — verification of the specification against the code

Shallow embedding of the CartPole-NEAT repository.  The web dashboard
(src/web/frontend/src/Dashboard.js, two revisions) is embedded directly from
source.  The NEAT evolutionary core is distributed as a Python package that is
not included in the repository snapshot (only its README and the spec are);
definitions for it are modelled from the spec, as marked in their doc comments.
-/

/-- Modelled from the spec: the Innovation Tracker state (section 3) — a
"mapping from (in-node id, out-node id) → innovation number, and next-available
node id / innovation number counters"; the Python module implementing it is
missing from the repository snapshot. -/
structure Tracker where
  pairs : List ((Nat × Nat) × Nat)
  nextInnov : Nat
  nextNode : Nat
deriving DecidableEq, Repr

/-- Association-list lookup on the recorded (in-node, out-node) pairs. -/
def lookupPair : List ((Nat × Nat) × Nat) → Nat × Nat → Option Nat
  | [], _ => none
  | e :: es, p => if e.1 = p then some e.2 else lookupPair es p

/-- Lookup of a structural pair in the tracker. -/
def Tracker.lookup (t : Tracker) (p : Nat × Nat) : Option Nat :=
  lookupPair t.pairs p

/-- Modelled from the spec (4.2): get_or_create(in_node, out_node) "returns
existing number if the pair was seen before in this run, otherwise allocates
the next number and records it". -/
def getOrCreate (t : Tracker) (p : Nat × Nat) : Tracker × Nat :=
  match t.lookup p with
  | some n => (t, n)
  | none =>
      ({ pairs := (p, t.nextInnov) :: t.pairs,
         nextInnov := t.nextInnov + 1,
         nextNode := t.nextNode }, t.nextInnov)

/-- Modelled from the spec (4.2): new_node_id allocates a fresh node
identifier when a connection is split by an add-node mutation. -/
def newNodeId (t : Tracker) : Tracker × Nat :=
  ({ t with nextNode := t.nextNode + 1 }, t.nextNode)

/-- A segment of a run: the sequence of get_or_create calls issued by
structural mutations anywhere in the run (any genome, any generation),
applied in order to the single shared tracker. -/
def runCalls (t : Tracker) : List (Nat × Nat) → Tracker
  | [] => t
  | p :: ps => runCalls (getOrCreate t p).1 ps

/-- A run record as served by the flask API and displayed by the dashboard
frontend (fields read by Dashboard.js: id, start_date, end_date). -/
structure Run where
  id : Nat
  start_date : Nat
  end_date : Option Nat
deriving DecidableEq, Repr

/-- Dashboard.delete from src/web/frontend/src/Dashboard.js (second revision):
issues an HTTP DELETE for the given run id and, only when the response status
is 204, replaces the component state's run list by filtering out the entries
whose id equals the argument.  The HTTP response status is a parameter. -/
def dashboardDelete (data : List Run) (id : Nat) (status : Nat) : List Run :=
  if status = 204 then data.filter (fun elem => elem.id != id) else data

/-- The end-date table cell of a rendered run row: either the placeholder
dash or a formatted date. -/
inductive EndCell where
  | placeholder
  | formatted (date : Nat)
deriving DecidableEq, Repr

/-- One rendered ListGroupItem row of the run list. -/
structure RunRow where
  id : Nat
  start : Nat
  endCell : EndCell
deriving DecidableEq, Repr

/-- The rendered output of RunList.render: either the "No data." div or the
list of rendered rows. -/
inductive RunListView where
  | noData
  | rows (items : List RunRow)
deriving DecidableEq, Repr

/-- The end cells of a rendered view, in row order. -/
def RunListView.endCells : RunListView → List EndCell
  | .noData => []
  | .rows items => items.map (fun r => r.endCell)

/-- In the first revision of RunList.render, end_date is read from the
props.data ARRAY itself (this.props.data.end_date), not from each run item; a
JavaScript array has no end_date property, so the read yields undefined
(modelled as none) for every array value. -/
def arrayEndDate (_ : List Run) : Option Nat := none

/-- RunList.render from the first revision in src/web/frontend/src/Dashboard.js:
renders "No data." when the list is empty; otherwise computes one end_date cell
from this.props.data.end_date (the array property read, which yields undefined,
hence the placeholder by the null check) and renders each item's id and
start_date with that single shared end-date cell. -/
def runListRenderV1 (data : List Run) : RunListView :=
  if data.length < 1 then .noData
  else
    let e := match arrayEndDate data with
      | none => EndCell.placeholder
      | some d => EndCell.formatted d
    .rows (data.map (fun item => { id := item.id, start := item.start_date, endCell := e }))

/-- Modelled from the spec (section 3): a ConnectionGene — (in-node id,
out-node id), weight, enabled flag, innovation number.  The Python class is
missing from the repository snapshot. -/
structure ConnGene where
  inNode : Nat
  outNode : Nat
  weight : Rat
  enabled : Bool
  innov : Nat
deriving DecidableEq, Repr

/-- Modelled from the spec (section 3): a Genome — node genes (identifiers),
connection genes keyed by innovation number, cached fitness.  The Python class
is missing from the repository snapshot. -/
structure Genome where
  nodes : List Nat
  conns : List ConnGene
  fitness : Rat
deriving DecidableEq, Repr

/-- The (in,out) structural pair of a connection gene. -/
def pairOf (c : ConnGene) : Nat × Nat := (c.inNode, c.outNode)

/-- First connection gene of a genome carrying the given innovation number. -/
def Genome.findConn (g : Genome) (innov : Nat) : Option ConnGene :=
  g.conns.find? (fun c => c.innov == innov)

/-- Invariant from the spec (section 3): no two connection genes in one genome
share the same (in,out) pair. -/
def WfPairs (g : Genome) : Prop := (g.conns.map pairOf).Nodup

instance (g : Genome) : Decidable (WfPairs g) := by
  unfold WfPairs
  infer_instance

/-- Modelled from the spec (4.4): re-enable provision — a gene disabled in the
contributing parent may be re-enabled in the offspring with some probability
(the coin is a parameter). -/
def maybeReenable (b : Bool) (c : ConnGene) : ConnGene :=
  if b && !c.enabled then { c with enabled := true } else c

/-- Modelled from the spec (4.4): inheritance of a disjoint/excess gene owned
by the parent with fitness mineFit against the other parent's otherFit —
inherited from the fitter parent only; on equal fitness a coin decides. -/
def inheritDisjoint (mineFit otherFit : Rat) (coin reen : Bool)
    (c : ConnGene) : Option ConnGene :=
  if otherFit < mineFit then some (maybeReenable reen c)
  else if mineFit = otherFit then
    (if coin then some (maybeReenable reen c) else none)
  else none

/-- The node identifiers mentioned by a list of connection genes. -/
def nodesOf (conns : List ConnGene) : List Nat :=
  (conns.map (fun c => c.inNode) ++ conns.map (fun c => c.outNode)).dedup

/-- Modelled from the spec (4.4): the Crossover Operator.  Genes are aligned
by innovation number; for matching genes the allele comes verbatim from either
parent (per-innovation choice function, true selects the first parent); a
disjoint/excess gene is inherited from the fitter parent only, on equal
fitness by a per-innovation coin, with the re-enable provision.  The offspring
node set is the union of the nodes contributed by the inherited genes.  The
Python implementation is missing from the repository snapshot. -/
def cross (A B : Genome) (choice coin reen : Nat → Bool) : Genome :=
  let fromA := A.conns.filterMap (fun c =>
    match B.findConn c.innov with
    | some cb => some (if choice c.innov then c else cb)
    | none => inheritDisjoint A.fitness B.fitness (coin c.innov) (reen c.innov) c)
  let fromB := B.conns.filterMap (fun c =>
    match A.findConn c.innov with
    | some _ => none
    | none => inheritDisjoint B.fitness A.fitness (coin c.innov) (reen c.innov) c)
  { nodes := nodesOf (fromA ++ fromB),
    conns := fromA ++ fromB,
    fitness := 0 }

/-- A population store: genome identifiers to genomes (none when absent). -/
def Store : Type := Nat → Option Genome

/-- Crossover acting on a population store: reads the two parents and writes
the offspring under a fresh identifier; no other slot is written. -/
def crossInto (store : Store) (i j newId : Nat)
    (choice coin reen : Nat → Bool) : Store :=
  match store i, store j with
  | some A, some B =>
      fun k => if k = newId then some (cross A B choice coin reen) else store k
  | _, _ => store

/-- A mutation acting on a population store: reads the parent, writes the
mutated private copy under a fresh identifier; no other slot is written. -/
def mutateInto (store : Store) (i newId : Nat) (m : Genome → Genome) : Store :=
  match store i with
  | some g => fun k => if k = newId then some (m g) else store k
  | none => store

/-- Whether the genome already has a connection gene on the (in,out) pair. -/
def Genome.connected (g : Genome) (p : Nat × Nat) : Bool :=
  g.conns.any (fun c => c.inNode == p.1 && c.outNode == p.2)

/-- Modelled from the spec (4.3): add-connection mutation — create a
ConnectionGene between the picked unconnected pair with a new or reused
innovation number from the tracker, initial weight, enabled; a no-op when the
pair is already connected.  The picked pair is a parameter (the randomness).
The Python implementation is missing from the repository snapshot. -/
def addConnection (t : Tracker) (g : Genome) (p : Nat × Nat) (w : Rat) :
    Tracker × Genome :=
  if g.connected p then (t, g)
  else
    let r := getOrCreate t p
    (r.1, { g with conns := ⟨p.1, p.2, w, true, r.2⟩ :: g.conns })

/-- Modelled from the spec (4.3): add-node mutation — pick an enabled
connection (by index, the randomness), disable it, insert a new NodeGene with
a fresh id from the tracker, and add the two new ConnectionGenes in→new
(weight 1) and new→out (the original weight), with innovation numbers from the
tracker.  The Python implementation is missing from the repository snapshot. -/
def addNode (t : Tracker) (g : Genome) (pick : Nat) : Tracker × Genome :=
  match g.conns.get? pick with
  | none => (t, g)
  | some c =>
      if c.enabled = false then (t, g)
      else
        let rn := newNodeId t
        let r1 := getOrCreate rn.1 (c.inNode, rn.2)
        let r2 := getOrCreate r1.1 (rn.2, c.outNode)
        (r2.1,
         { nodes := rn.2 :: g.nodes,
           conns := ⟨c.inNode, rn.2, 1, true, r1.2⟩ ::
                    ⟨rn.2, c.outNode, c.weight, true, r2.2⟩ ::
                    g.conns.map (fun d =>
                      if d.innov == c.innov then { d with enabled := false } else d),
           fitness := g.fitness })

/-- Modelled from the spec (4.3): toggle-enable mutation — flip the enabled
flag of the gene with the given innovation number; the tracker is not
consulted.  The Python implementation is missing from the repository
snapshot. -/
def toggleEnable (t : Tracker) (g : Genome) (innov : Nat) : Tracker × Genome :=
  (t, { g with conns := g.conns.map (fun c =>
          if c.innov == innov then { c with enabled := !c.enabled } else c) })

/-- Modelled from the spec (4.7 and section 8): initial-population seeding —
a genome with only input→output connections: inputs 0..nIn-1, outputs
nIn..nIn+nOut-1, one enabled connection per (input, output) pair, innovation
numbers as a fresh tracker would assign them in that order. -/
def seedGenome (nIn nOut : Nat) (w : Rat) : Genome :=
  { nodes := List.range (nIn + nOut),
    conns := (List.range nIn).flatMap (fun i =>
      (List.range nOut).map (fun j =>
        ⟨i, nIn + j, w, true, i * nOut + j⟩)),
    fitness := 0 }

/-- Modelled from the spec (4.1, design note 1): the supported activation
kinds, a tagged variant resolved by explicit lookup. -/
inductive ActKind where
  | identity
  | relu
  | softsign
deriving DecidableEq, Repr

/-- Activation application for each supported kind. -/
def applyAct : ActKind → Rat → Rat
  | .identity, x => x
  | .relu, x => max 0 x
  | .softsign, x => x / (1 + |x|)

/-- Modelled from the spec (4.1, design note 2): a decoded network — an
explicit adjacency structure of node indices: activation order, input and
output identifiers, enabled weighted edges, one activation kind. -/
structure Network where
  order : List Nat
  inputIds : List Nat
  outputIds : List Nat
  edges : List (Nat × Nat × Rat)
  act : ActKind
deriving DecidableEq, Repr

/-- Modelled from the spec (4.1, 7): StructuralError — the genome decodes to
an invalid network under the fixed feed-forward-only policy (a cycle). -/
inductive StructuralError where
  | cycle
deriving DecidableEq, Repr

/-- The enabled (in,out) edges of a genome. -/
def enabledEdges (g : Genome) : List (Nat × Nat) :=
  (g.conns.filter (fun c => c.enabled)).map (fun c => (c.inNode, c.outNode))

/-- Kahn-style topological ordering with fuel: repeatedly peel off the nodes
with no incoming edge from a remaining node; none when a cycle remains. -/
def kahn (fuel : Nat) (nodes : List Nat) (edges : List (Nat × Nat)) :
    Option (List Nat) :=
  match fuel with
  | 0 => if nodes.isEmpty then some [] else none
  | fuel + 1 =>
      if nodes.isEmpty then some []
      else
        let ready := nodes.filter (fun n =>
          !(edges.any (fun e => e.2 == n && nodes.contains e.1)))
        if ready.isEmpty then none
        else
          let rest := nodes.filter (fun n => !(ready.contains n))
          (kahn fuel rest edges).map (fun tail => ready ++ tail)

/-- Modelled from the spec (4.1): decode(genome) — produce the directed graph
of nodes and enabled connections in dependency order, rejecting cyclic graphs
with StructuralError under the fixed feed-forward-only policy. -/
def decode (g : Genome) (nIn nOut : Nat) : Except StructuralError Network :=
  match kahn g.nodes.length g.nodes (enabledEdges g) with
  | none => .error .cycle
  | some ord =>
      .ok { order := ord,
            inputIds := List.range nIn,
            outputIds := (List.range nOut).map (fun j => nIn + j),
            edges := (g.conns.filter (fun c => c.enabled)).map
              (fun c => (c.inNode, c.outNode, c.weight)),
            act := .softsign }

/-- Value of a node in the evaluation store (0 before being written). -/
def storeGet (store : List (Nat × Rat)) (n : Nat) : Rat :=
  match store.find? (fun e => e.1 == n) with
  | some e => e.2
  | none => 0

/-- Weighted sum of the incoming edges of a node under the current store. -/
def nodeInput (edges : List (Nat × Nat × Rat)) (store : List (Nat × Rat))
    (n : Nat) : Rat :=
  (edges.filter (fun e => e.2.1 == n)).foldl
    (fun acc e => acc + e.2.2 * storeGet store e.1) 0

/-- Node-by-node activation in dependency order, threading the value store
and the network through the loop; the network is returned so that freedom
from side effects on it is an explicit statement. -/
def evalNodes : List Nat → Network → List (Nat × Rat) →
    (List (Nat × Rat) × Network)
  | [], net, store => (store, net)
  | n :: rest, net, store =>
      if net.inputIds.contains n then evalNodes rest net store
      else evalNodes rest net
        ((n, applyAct net.act (nodeInput net.edges store n)) :: store)

/-- Modelled from the spec (4.1): evaluate(network, input_vector) — apply the
activation functions node-by-node in dependency order and read the outputs;
also returns the network it used, which it must not have modified. -/
def evaluate (net : Network) (input : List Rat) : List Rat × Network :=
  let r := evalNodes net.order net (net.inputIds.zip input)
  (net.outputIds.map (storeGet r.1), r.2)

/-- Whether a genome decodes to a valid (acyclic) network. -/
def decodeOk (g : Genome) (nIn nOut : Nat) : Bool :=
  match decode g nIn nOut with
  | .ok _ => true
  | .error _ => false

/-- Modelled from the spec (7): the bounded retry loop around a structural
mutation or crossover attempt.  Candidate number fuel-1, fuel-2, ... are
tried in turn (cand is the attempt oracle: mutation or crossover with fresh
randomness per attempt); an attempt whose genome decodes to an invalid
network is discarded and retried; when the attempts are exhausted the genome
is returned unmutated.  A StructuralError is always caught locally. -/
def tryMutate (nIn nOut : Nat) (g : Genome) (cand : Nat → Genome) :
    Nat → Except StructuralError Genome
  | 0 => .ok g
  | fuel + 1 =>
      match decode (cand fuel) nIn nOut with
      | .ok _ => .ok (cand fuel)
      | .error _ => tryMutate nIn nOut g cand fuel

/-- The genome delivered by the retry loop (the loop never fails, so the
fallback is never taken). -/
def tryMutateResult (nIn nOut : Nat) (g : Genome) (cand : Nat → Genome)
    (fuel : Nat) : Genome :=
  (tryMutate nIn nOut g cand fuel).toOption.getD g

/-- Modelled from the spec (section 3, 4.5, 4.7): the per-species state the
Population Manager reads when scheduling reproduction — adjusted fitness sum
after fitness sharing, running best fitness, generations since improvement. -/
structure SpeciesState where
  adjFitSum : Rat
  bestFitness : Rat
  gensSinceImprovement : Nat
deriving DecidableEq, Repr

/-- Modelled from the spec (4.5): a species is stagnant when its best fitness
has not improved for more generations than the configured window. -/
def stagnant (window : Nat) (s : SpeciesState) : Bool :=
  window < s.gensSinceImprovement

/-- Modelled from the spec (4.5): the single best species overall — strictly
better best fitness than every other species. -/
def isSingleBest (ss : List SpeciesState) (i : Nat) : Bool :=
  (List.range ss.length).all (fun j =>
    j == i ||
    decide ((ss.getD j ⟨0, 0, 0⟩).bestFitness <
            (ss.getD i ⟨0, 0, 0⟩).bestFitness))

/-- Reproduction eligibility per species: not stagnant, or protected as the
single best species overall. -/
def eligibleFlags (window : Nat) (ss : List SpeciesState) : List Bool :=
  (List.range ss.length).map (fun i =>
    !stagnant window (ss.getD i ⟨0, 0, 0⟩) || isSingleBest ss i)

/-- The floor part of the largest-remainder quota for one species. -/
def floorShare (target : Nat) (S f : Rat) : Nat :=
  (Int.floor ((target : Rat) * f / S)).toNat

/-- The fractional remainder of the largest-remainder quota for one species. -/
def remainderShare (target : Nat) (S f : Rat) : Rat :=
  (target : Rat) * f / S - Int.floor ((target : Rat) * f / S)

/-- The largest-remainder allocation over positive weights: proportional
floor quotas, with the leftover offspring given one each to the species with
the largest fractional remainders. -/
def allocateCore (w : List Rat) (target : Nat) : List Nat :=
  let S := w.sum
  let q := w.map (floorShare target S)
  let R := target - q.sum
  let order := (List.range w.length).mergeSort (fun i j =>
    decide (remainderShare target S (w.getD j 0) ≤
            remainderShare target S (w.getD i 0)))
  let top := order.take R
  (List.range w.length).map (fun i => q.getD i 0 + if i ∈ top then 1 else 0)

/-- Modelled from the spec (4.7 SHARING_FITNESS): largest-remainder
offspring-count allocation — proportional quotas by adjusted fitness sum,
reconciled so that the total is exactly the target population size; an
all-zero distribution falls back to equal weights. -/
def allocate (fits : List Rat) (target : Nat) : List Nat :=
  allocateCore (if fits.sum = 0 then fits.map (fun _ => (1 : Rat)) else fits)
    target

/-- Scatter the allocated counts of the eligible species back over all
species, giving every ineligible species zero offspring. -/
def scatterCounts : List Bool → List Nat → List Nat
  | [], _ => []
  | false :: bs, vs => 0 :: scatterCounts bs vs
  | true :: bs, [] => 0 :: scatterCounts bs []
  | true :: bs, v :: vs => v :: scatterCounts bs vs

/-- Modelled from the spec (4.5, 4.7): the offspring counts the Population
Manager allocates across species — stagnant species (except the protected
single best) are excluded and receive zero; the rest share the target by
largest-remainder allocation on their adjusted fitness sums. -/
def offspringCounts (window target : Nat) (ss : List SpeciesState) : List Nat :=
  let flags := eligibleFlags window ss
  let eligFits := ((ss.zip flags).filter (fun p => p.2)).map
    (fun p => p.1.adjFitSum)
  scatterCounts flags (allocate eligFits target)

/-! ## Lemmas about the Innovation Tracker -/

theorem lookupPair_cons (e : (Nat × Nat) × Nat) (es : List ((Nat × Nat) × Nat))
    (p : Nat × Nat) :
    lookupPair (e :: es) p = if e.1 = p then some e.2 else lookupPair es p := rfl

theorem getOrCreate_lookup_self (t : Tracker) (p : Nat × Nat) :
    ((getOrCreate t p).1).lookup p = some (getOrCreate t p).2 := by
  unfold getOrCreate
  cases h : t.lookup p with
  | some n => simpa using h
  | none => simp [Tracker.lookup, lookupPair]

theorem getOrCreate_lookup_mono (t : Tracker) (p q : Nat × Nat) (n : Nat)
    (h : t.lookup p = some n) : ((getOrCreate t q).1).lookup p = some n := by
  unfold getOrCreate
  cases hq : t.lookup q with
  | some m => simpa using h
  | none =>
      have hne : q ≠ p := by
        intro he
        rw [he, h] at hq
        exact Option.noConfusion hq
      simpa [Tracker.lookup, lookupPair, hne] using h

theorem runCalls_lookup_mono (ps : List (Nat × Nat)) (t : Tracker)
    (p : Nat × Nat) (n : Nat) (h : t.lookup p = some n) :
    (runCalls t ps).lookup p = some n := by
  induction ps generalizing t with
  | nil => exact h
  | cons q ps ih =>
      exact ih (getOrCreate t q).1 (getOrCreate_lookup_mono t p q n h)

theorem getOrCreate_of_lookup (t : Tracker) (p : Nat × Nat) (n : Nat)
    (h : t.lookup p = some n) : (getOrCreate t p).2 = n := by
  unfold getOrCreate
  rw [h]

/-- C1: get_or_create is idempotent for the run's entire duration: on a pair not
seen before, the first call allocates the next innovation number and records it,
and after any further sequence of get_or_create calls (mutations on any genomes,
any generations, sharing the run's tracker) the same pair still yields that
identical number. -/
theorem tracker_getOrCreate_idempotent (t : Tracker) (p : Nat × Nat)
    (ps : List (Nat × Nat)) (h : t.lookup p = none) :
    (getOrCreate t p).2 = t.nextInnov ∧
    ((getOrCreate t p).1).lookup p = some t.nextInnov ∧
    (getOrCreate (runCalls (getOrCreate t p).1 ps) p).2 = t.nextInnov := by
  have halloc : (getOrCreate t p).2 = t.nextInnov := by
    unfold getOrCreate
    rw [h]
  have hrec : ((getOrCreate t p).1).lookup p = some t.nextInnov := by
    have := getOrCreate_lookup_self t p
    rwa [halloc] at this
  refine ⟨halloc, hrec, ?_⟩
  exact getOrCreate_of_lookup _ p t.nextInnov
    (runCalls_lookup_mono ps (getOrCreate t p).1 p t.nextInnov hrec)

/-- Witness for C1: a fresh tracker, the pair (0, 1), then later calls from
independent mutations, including one on the same pair. -/
theorem tracker_getOrCreate_idempotent_witness :
    (getOrCreate ⟨[], 0, 0⟩ (0, 1)).2 = 0 ∧
    ((getOrCreate ⟨[], 0, 0⟩ (0, 1)).1).lookup (0, 1) = some 0 ∧
    (getOrCreate (runCalls (getOrCreate ⟨[], 0, 0⟩ (0, 1)).1
      [(1, 2), (0, 1), (3, 1)]) (0, 1)).2 = 0 :=
  tracker_getOrCreate_idempotent ⟨[], 0, 0⟩ (0, 1) [(1, 2), (0, 1), (3, 1)] rfl

/-! ## Lemmas about the dashboard -/

/-- C9: Dashboard.delete changes the displayed run list only when the DELETE
request returns status 204: any other status leaves the state unchanged, and on
status 204 the result is an order-preserving subsequence of the previous list in
which no run with the argument id remains and every run with a different id is
kept. -/
theorem dashboardDelete_spec (data : List Run) (id status : Nat)
    (h : status ≠ 204) :
    dashboardDelete data id status = data ∧
    (dashboardDelete data id 204).Sublist data ∧
    (dashboardDelete data id 204).countP (fun r => r.id == id) = 0 ∧
    (dashboardDelete data id 204).countP (fun r => r.id != id) =
      data.countP (fun r => r.id != id) := by
  have h204 : dashboardDelete data id 204 = data.filter (fun r => r.id != id) := by
    simp [dashboardDelete]
  refine ⟨by simp [dashboardDelete, h], ?_, ?_, ?_⟩
  · rw [h204]
    exact List.filter_sublist data
  · rw [h204, List.countP_eq_zero]
    intro r hr
    have hne := List.of_mem_filter hr
    simp only [bne_iff_ne, ne_eq] at hne
    simp [hne]
  · rw [h204, List.countP_filter]
    simp

/-- Witness for C9: a two-run list; status 500 leaves it unchanged, status 204
removes exactly the run with id 1. -/
theorem dashboardDelete_spec_witness :
    dashboardDelete [⟨1, 10, none⟩, ⟨2, 20, some 30⟩] 1 500 =
      [⟨1, 10, none⟩, ⟨2, 20, some 30⟩] ∧
    (dashboardDelete [⟨1, 10, none⟩, ⟨2, 20, some 30⟩] 1 204).Sublist
      [⟨1, 10, none⟩, ⟨2, 20, some 30⟩] ∧
    (dashboardDelete [⟨1, 10, none⟩, ⟨2, 20, some 30⟩] 1 204).countP
      (fun r => r.id == 1) = 0 ∧
    (dashboardDelete [⟨1, 10, none⟩, ⟨2, 20, some 30⟩] 1 204).countP
      (fun r => r.id != 1) =
      List.countP (fun r => r.id != 1)
        ([⟨1, 10, none⟩, ⟨2, 20, some 30⟩] : List Run) :=
  dashboardDelete_spec [⟨1, 10, none⟩, ⟨2, 20, some 30⟩] 1 500 (by decide)

theorem map_const_eq_replicate {α β : Type} (l : List α) (c : β) (f : α → β)
    (hf : ∀ a, f a = c) : l.map f = List.replicate l.length c := by
  induction l with
  | nil => rfl
  | cons a l ih => simp [hf a, ih, List.replicate_succ]

/-- C10: in the first dashboard revision, the end-date cell rendered for every
run is the placeholder, regardless of the end_date values carried by the
individual run items, because end_date is read from the props.data array itself;
an empty list renders "No data.". -/
theorem runListRenderV1_placeholder (data : List Run) (h : data ≠ []) :
    runListRenderV1 [] = RunListView.noData ∧
    (runListRenderV1 data).endCells =
      List.replicate data.length EndCell.placeholder := by
  constructor
  · rfl
  · have hlen : ¬ data.length < 1 := by
      simpa [Nat.lt_one_iff] using h
    simp only [runListRenderV1, hlen, if_false, arrayEndDate,
      RunListView.endCells, List.map_map]
    exact map_const_eq_replicate data EndCell.placeholder _ (fun a => rfl)

/-- Witness for C10: two runs that do carry end_date values still both render
the placeholder end cell. -/
theorem runListRenderV1_placeholder_witness :
    runListRenderV1 [] = RunListView.noData ∧
    (runListRenderV1 [⟨1, 10, some 11⟩, ⟨2, 20, some 21⟩]).endCells =
      List.replicate
        ([⟨1, 10, some 11⟩, ⟨2, 20, some 21⟩] : List Run).length
        EndCell.placeholder :=
  runListRenderV1_placeholder [⟨1, 10, some 11⟩, ⟨2, 20, some 21⟩] (by decide)

/-! ## Frame property of the genetic operators (population store) -/

theorem crossInto_frame (store : Store) (i j newId : Nat)
    (choice coin reen : Nat → Bool) (k2 : Nat) (hk2 : k2 ≠ newId) :
    crossInto store i j newId choice coin reen k2 = store k2 := by
  unfold crossInto
  cases hi : store i with
  | none => rfl
  | some A =>
      cases hj : store j with
      | none => rfl
      | some B => simp [if_neg hk2]

theorem mutateInto_frame (store : Store) (i newId : Nat) (m : Genome → Genome)
    (k2 : Nat) (hk2 : k2 ≠ newId) :
    mutateInto store i newId m k2 = store k2 := by
  unfold mutateInto
  cases hi : store i with
  | none => rfl
  | some g => simp [if_neg hk2]

/-- C5: crossover (and every genetic operator on the store) leaves both
parents unchanged — writing the offspring under a fresh identifier changes no
other slot, so each parent genome, with all its node genes and connection
genes (weights and enabled flags included), is identical before and after;
likewise a mutation writes only its private copy. -/
theorem genetic_operators_frame (store : Store) (i j newId k : Nat)
    (choice coin reen : Nat → Bool) (m : Genome → Genome)
    (hfresh : store newId = none) (hk : k ≠ newId) :
    crossInto store i j newId choice coin reen i = store i ∧
    crossInto store i j newId choice coin reen j = store j ∧
    crossInto store i j newId choice coin reen k = store k ∧
    mutateInto store i newId m i = store i ∧
    mutateInto store i newId m k = store k := by
  have hslot : ∀ k2, store k2 ≠ none → k2 ≠ newId := by
    intro k2 hsome he
    exact hsome (he ▸ hfresh)
  refine ⟨?_, ?_, crossInto_frame store i j newId choice coin reen k hk, ?_,
    mutateInto_frame store i newId m k hk⟩
  · by_cases hi : store i = none
    · unfold crossInto
      rw [hi]
      exact hi
    · exact crossInto_frame store i j newId choice coin reen i (hslot i hi)
  · by_cases hj : store j = none
    · unfold crossInto
      cases hi : store i with
      | none =>
          rw [hj]
          exact hj
      | some A =>
          rw [hj]
          exact hj
    · exact crossInto_frame store i j newId choice coin reen j (hslot j hj)
  · by_cases hi : store i = none
    · unfold mutateInto
      rw [hi]
      exact hi
    · exact mutateInto_frame store i newId m i (hslot i hi)

/-- Witness for C5: a store holding two parents at slots 0 and 1, offspring
written at the fresh slot 5, an unrelated slot 3. -/
theorem genetic_operators_frame_witness :
    crossInto
      (fun n => if n = 0 then some (seedGenome 1 1 1)
                else if n = 1 then some (seedGenome 1 1 2) else none)
      0 1 5 (fun _ => true) (fun _ => true) (fun _ => false) 0 =
      (fun n => if n = 0 then some (seedGenome 1 1 1)
                else if n = 1 then some (seedGenome 1 1 2) else none) 0 ∧
    crossInto
      (fun n => if n = 0 then some (seedGenome 1 1 1)
                else if n = 1 then some (seedGenome 1 1 2) else none)
      0 1 5 (fun _ => true) (fun _ => true) (fun _ => false) 1 =
      (fun n => if n = 0 then some (seedGenome 1 1 1)
                else if n = 1 then some (seedGenome 1 1 2) else none) 1 ∧
    crossInto
      (fun n => if n = 0 then some (seedGenome 1 1 1)
                else if n = 1 then some (seedGenome 1 1 2) else none)
      0 1 5 (fun _ => true) (fun _ => true) (fun _ => false) 3 =
      (fun n => if n = 0 then some (seedGenome 1 1 1)
                else if n = 1 then some (seedGenome 1 1 2) else none) 3 ∧
    mutateInto
      (fun n => if n = 0 then some (seedGenome 1 1 1)
                else if n = 1 then some (seedGenome 1 1 2) else none)
      0 5 id 0 =
      (fun n => if n = 0 then some (seedGenome 1 1 1)
                else if n = 1 then some (seedGenome 1 1 2) else none) 0 ∧
    mutateInto
      (fun n => if n = 0 then some (seedGenome 1 1 1)
                else if n = 1 then some (seedGenome 1 1 2) else none)
      0 5 id 3 =
      (fun n => if n = 0 then some (seedGenome 1 1 1)
                else if n = 1 then some (seedGenome 1 1 2) else none) 3 :=
  genetic_operators_frame
    (fun n => if n = 0 then some (seedGenome 1 1 1)
              else if n = 1 then some (seedGenome 1 1 2) else none)
    0 1 5 3 (fun _ => true) (fun _ => true) (fun _ => false) id rfl
    (by decide)

/-! ## The bounded retry loop around structural errors -/

theorem tryMutate_isOk (nIn nOut : Nat) (g : Genome) (cand : Nat → Genome)
    (fuel : Nat) : (tryMutate nIn nOut g cand fuel).isOk = true := by
  induction fuel with
  | zero => rfl
  | succ n ih =>
      unfold tryMutate
      cases hd : decode (cand n) nIn nOut with
      | ok net => rfl
      | error e => exact ih

theorem tryMutate_result (nIn nOut : Nat) (g : Genome) (cand : Nat → Genome)
    (fuel : Nat) :
    tryMutateResult nIn nOut g cand fuel = g ∨
      decodeOk (tryMutateResult nIn nOut g cand fuel) nIn nOut = true := by
  induction fuel with
  | zero => exact Or.inl rfl
  | succ n ih =>
      unfold tryMutateResult tryMutate
      cases hd : decode (cand n) nIn nOut with
      | ok net =>
          right
          simp [Except.toOption, decodeOk, hd]
      | error e => exact ih

theorem tryMutate_exhausted (nIn nOut : Nat) (g : Genome) (cand : Nat → Genome)
    (fuel : Nat) (hbad : ∀ i, i < fuel → decodeOk (cand i) nIn nOut = false) :
    tryMutate nIn nOut g cand fuel = .ok g := by
  induction fuel with
  | zero => rfl
  | succ n ih =>
      unfold tryMutate
      cases hd : decode (cand n) nIn nOut with
      | ok net =>
          have : decodeOk (cand n) nIn nOut = true := by simp [decodeOk, hd]
          rw [hbad n (Nat.lt_succ_self n)] at this
          exact Bool.noConfusion this
      | error e => exact ih (fun i hi => hbad i (Nat.lt_succ_of_lt hi))

/-- C7: a mutation/crossover attempt whose genome decodes to an invalid
network (StructuralError under the feed-forward-only policy) is discarded and
retried at most a bounded number of times; the loop always returns normally
(never aborts), its result is either a valid mutant or the genome unmutated,
and when every attempt is invalid the genome is returned unmutated. -/
theorem structural_error_recovery (nIn nOut : Nat) (g : Genome)
    (cand : Nat → Genome) (fuel fuel2 : Nat)
    (hbad : ∀ i, i < fuel2 → decodeOk (cand i) nIn nOut = false) :
    (tryMutate nIn nOut g cand fuel).isOk = true ∧
    (tryMutateResult nIn nOut g cand fuel = g ∨
      decodeOk (tryMutateResult nIn nOut g cand fuel) nIn nOut = true) ∧
    tryMutate nIn nOut g cand fuel2 = .ok g :=
  ⟨tryMutate_isOk nIn nOut g cand fuel,
   tryMutate_result nIn nOut g cand fuel,
   tryMutate_exhausted nIn nOut g cand fuel2 hbad⟩

/-- Witness for C7: every candidate is a self-loop genome (a cycle), so all
attempts are discarded and the seed genome is returned unmutated. -/
theorem structural_error_recovery_witness :
    (tryMutate 1 1 (seedGenome 1 1 1)
      (fun _ => ⟨[0], [⟨0, 0, 1, true, 0⟩], 0⟩) 3).isOk = true ∧
    (tryMutateResult 1 1 (seedGenome 1 1 1)
      (fun _ => ⟨[0], [⟨0, 0, 1, true, 0⟩], 0⟩) 3 = seedGenome 1 1 1 ∨
      decodeOk (tryMutateResult 1 1 (seedGenome 1 1 1)
        (fun _ => ⟨[0], [⟨0, 0, 1, true, 0⟩], 0⟩) 3) 1 1 = true) ∧
    tryMutate 1 1 (seedGenome 1 1 1)
      (fun _ => ⟨[0], [⟨0, 0, 1, true, 0⟩], 0⟩) 2 = .ok (seedGenome 1 1 1) :=
  structural_error_recovery 1 1 (seedGenome 1 1 1)
    (fun _ => ⟨[0], [⟨0, 0, 1, true, 0⟩], 0⟩) 3 2 (fun _ _ => rfl)

/-! ## Stagnant-species exclusion -/

theorem getD_map_range {α : Type} (k i : Nat) (f : Nat → α) (d : α)
    (h : i < k) : ((List.range k).map f).getD i d = f i := by
  have hlen : i < ((List.range k).map f).length := by simpa using h
  rw [List.getD_eq_getElem _ d hlen]
  rw [List.getElem_map]
  congr 1
  exact List.getElem_range i _

theorem scatterCounts_getD_zero (bs : List Bool) (vs : List Nat) (i : Nat)
    (h : bs.getD i true = false) : (scatterCounts bs vs).getD i 0 = 0 := by
  induction bs generalizing vs i with
  | nil => exact absurd h (by simp)
  | cons b bs ih =>
      cases i with
      | zero =>
          have hb : b = false := h
          subst hb
          cases vs <;> rfl
      | succ n =>
          have htail : bs.getD n true = false := h
          cases b with
          | false => exact ih vs n htail
          | true =>
              cases vs with
              | nil => exact ih [] n htail
              | cons v vs => exact ih vs n htail

/-- C8: a species whose best fitness has not improved for more generations
than the configured stagnation window is allocated zero offspring for the next
generation, unless it is the single best species overall (which is always
protected). -/
theorem stagnant_species_zero_offspring (window target i : Nat)
    (ss : List SpeciesState) (hi : i < ss.length)
    (hst : stagnant window (ss.getD i ⟨0, 0, 0⟩) = true)
    (hnb : isSingleBest ss i = false) :
    (offspringCounts window target ss).getD i 0 = 0 := by
  have hflag : (eligibleFlags window ss).getD i true = false := by
    unfold eligibleFlags
    rw [getD_map_range ss.length i _ true hi]
    rw [hst, hnb]
    rfl
  exact scatterCounts_getD_zero _ _ i hflag

/-- Witness for C8: two species; species 1 is stagnant (9 generations without
improvement against a window of 3) and is not the single best, so it gets
zero of the 7 offspring. -/
theorem stagnant_species_zero_offspring_witness :
    (offspringCounts 3 7 [⟨5, 10, 0⟩, ⟨3, 1, 9⟩]).getD 1 0 = 0 :=
  stagnant_species_zero_offspring 3 7 1 [⟨5, 10, 0⟩, ⟨3, 1, 9⟩]
    (by decide) (by decide) (by decide)

/-! ## Determinism and purity of decode/evaluate -/

theorem evalNodes_preserves_network (l : List Nat) (net : Network)
    (store : List (Nat × Rat)) : (evalNodes l net store).2 = net := by
  induction l generalizing store with
  | nil => rfl
  | cons n rest ih =>
      unfold evalNodes
      by_cases hc : net.inputIds.contains n = true
      · rw [if_pos hc]
        exact ih _
      · rw [if_neg hc]
        exact ih _

/-- C4: decoding a genome and evaluating the decoded network on the zero
input vector is deterministic — decode is a function, so any two decodes of
the same genome agree, and any two evaluations of the same network on the
same input yield the same output vector — and evaluate has no side effect on
the network (it hands the network back unchanged). -/
theorem decode_evaluate_deterministic (g : Genome) (nIn nOut : Nat)
    (net1 net2 : Network)
    (h1 : decode g nIn nOut = .ok net1) (h2 : decode g nIn nOut = .ok net2) :
    (evaluate net1 (List.replicate nIn 0)).1 =
      (evaluate net2 (List.replicate nIn 0)).1 ∧
    (evaluate net1 (List.replicate nIn 0)).2 = net1 := by
  have hnet : net1 = net2 := by
    rw [h1] at h2
    exact Except.ok.inj h2
  constructor
  · rw [hnet]
  · unfold evaluate
    exact evalNodes_preserves_network _ _ _

/-- Witness for C4: the two-node genome with one enabled connection decodes
and evaluates deterministically with no effect on the network. -/
theorem decode_evaluate_deterministic_witness :
    (evaluate ⟨[0, 1], [0], [1], [(0, 1, 1)], .softsign⟩
      (List.replicate 1 0)).1 =
      (evaluate ⟨[0, 1], [0], [1], [(0, 1, 1)], .softsign⟩
        (List.replicate 1 0)).1 ∧
    (evaluate ⟨[0, 1], [0], [1], [(0, 1, 1)], .softsign⟩
      (List.replicate 1 0)).2 =
      ⟨[0, 1], [0], [1], [(0, 1, 1)], .softsign⟩ :=
  decode_evaluate_deterministic ⟨[0, 1], [⟨0, 1, 1, true, 0⟩], 0⟩ 1 1
    ⟨[0, 1], [0], [1], [(0, 1, 1)], .softsign⟩
    ⟨[0, 1], [0], [1], [(0, 1, 1)], .softsign⟩ rfl rfl

/-! ## Crossover gene membership -/

theorem maybeReenable_innov (b : Bool) (c : ConnGene) :
    (maybeReenable b c).innov = c.innov := by
  unfold maybeReenable
  split <;> rfl

theorem maybeReenable_inNode (b : Bool) (c : ConnGene) :
    (maybeReenable b c).inNode = c.inNode := by
  unfold maybeReenable
  split <;> rfl

theorem maybeReenable_outNode (b : Bool) (c : ConnGene) :
    (maybeReenable b c).outNode = c.outNode := by
  unfold maybeReenable
  split <;> rfl

theorem maybeReenable_weight (b : Bool) (c : ConnGene) :
    (maybeReenable b c).weight = c.weight := by
  unfold maybeReenable
  split <;> rfl

theorem maybeReenable_pairOf (b : Bool) (c : ConnGene) :
    pairOf (maybeReenable b c) = pairOf c := by
  unfold maybeReenable
  split <;> rfl

theorem inheritDisjoint_eq_some {f1 f2 : Rat} {coin reen : Bool}
    {c c' : ConnGene} (h : inheritDisjoint f1 f2 coin reen c = some c') :
    c' = maybeReenable reen c := by
  unfold inheritDisjoint at h
  split_ifs at h <;> exact (Option.some.inj h).symm

theorem findConn_mem {g : Genome} {n : Nat} {cb : ConnGene}
    (h : g.findConn n = some cb) : cb ∈ g.conns :=
  List.mem_of_find?_eq_some h

theorem findConn_innov {g : Genome} {n : Nat} {cb : ConnGene}
    (h : g.findConn n = some cb) : cb.innov = n := by
  have := List.find?_some h
  simpa using this

theorem findConn_isSome_of_mem {g : Genome} {a : ConnGene}
    (ha : a ∈ g.conns) : (g.findConn a.innov).isSome := by
  unfold Genome.findConn
  rw [List.find?_isSome]
  exact ⟨a, ha, by simp⟩

theorem cross_conns_cases (A B : Genome) (choice coin reen : Nat → Bool)
    (c : ConnGene) (hc : c ∈ (cross A B choice coin reen).conns) :
    (∃ a ∈ A.conns, c = a) ∨
    (∃ b ∈ B.conns, c = b) ∨
    (∃ a ∈ A.conns, B.findConn a.innov = none ∧
      c = maybeReenable (reen a.innov) a) ∨
    (∃ b ∈ B.conns, A.findConn b.innov = none ∧
      c = maybeReenable (reen b.innov) b) := by
  have hc2 : c ∈
      A.conns.filterMap (fun a =>
        match B.findConn a.innov with
        | some cb => some (if choice a.innov then a else cb)
        | none =>
            inheritDisjoint A.fitness B.fitness (coin a.innov) (reen a.innov) a) ++
      B.conns.filterMap (fun b =>
        match A.findConn b.innov with
        | some _ => none
        | none =>
            inheritDisjoint B.fitness A.fitness (coin b.innov) (reen b.innov) b) :=
    hc
  rcases List.mem_append.mp hc2 with hA2 | hB2
  · rcases List.mem_filterMap.mp hA2 with ⟨a, ha, hfa⟩
    cases hfind : B.findConn a.innov with
    | some cb =>
        rw [hfind] at hfa
        have hif : (if choice a.innov then a else cb) = c := Option.some.inj hfa
        by_cases hch : choice a.innov = true
        · left
          refine ⟨a, ha, ?_⟩
          rw [← hif, if_pos hch]
        · right; left
          refine ⟨cb, findConn_mem hfind, ?_⟩
          rw [← hif, if_neg hch]
    | none =>
        rw [hfind] at hfa
        right; right; left
        exact ⟨a, ha, hfind, inheritDisjoint_eq_some hfa⟩
  · rcases List.mem_filterMap.mp hB2 with ⟨b, hb, hfb⟩
    cases hfind : A.findConn b.innov with
    | some cb =>
        rw [hfind] at hfb
        exact Option.noConfusion hfb
    | none =>
        rw [hfind] at hfb
        right; right; right
        exact ⟨b, hb, hfind, inheritDisjoint_eq_some hfb⟩

/-- C3: the crossover offspring's connection-gene set is a subset of the union
of the two parents' gene sets (up to the re-enable provision: each offspring
gene agrees with a parent gene on innovation number, in-node, out-node and
weight), every gene whose innovation number matches in both parents appears
verbatim in at least one parent, and the offspring's node set is the union of
the nodes contributed by the inherited genes. -/
theorem crossover_gene_membership (A B : Genome) (choice coin reen : Nat → Bool) :
    ((cross A B choice coin reen).conns.all (fun c =>
      (A.conns ++ B.conns).any (fun d =>
        c.innov == d.innov && c.inNode == d.inNode &&
        c.outNode == d.outNode && decide (c.weight = d.weight)))) = true ∧
    ((cross A B choice coin reen).conns.all (fun c =>
      !((A.findConn c.innov).isSome && (B.findConn c.innov).isSome) ||
      (decide (c ∈ A.conns) || decide (c ∈ B.conns)))) = true ∧
    (cross A B choice coin reen).nodes.toFinset =
      ((cross A B choice coin reen).conns.map (fun c => c.inNode)).toFinset ∪
      ((cross A B choice coin reen).conns.map (fun c => c.outNode)).toFinset := by
  refine ⟨?_, ?_, ?_⟩
  · rw [List.all_eq_true]
    intro c hc
    rw [List.any_eq_true]
    rcases cross_conns_cases A B choice coin reen c hc with
      ⟨a, ha, rfl⟩ | ⟨b, hb, rfl⟩ | ⟨a, ha, hfind, rfl⟩ | ⟨b, hb, hfind, rfl⟩
    · exact ⟨c, List.mem_append.mpr (Or.inl ha), by simp⟩
    · exact ⟨c, List.mem_append.mpr (Or.inr hb), by simp⟩
    · exact ⟨a, List.mem_append.mpr (Or.inl ha),
        by simp [maybeReenable_innov, maybeReenable_inNode,
                 maybeReenable_outNode, maybeReenable_weight]⟩
    · exact ⟨b, List.mem_append.mpr (Or.inr hb),
        by simp [maybeReenable_innov, maybeReenable_inNode,
                 maybeReenable_outNode, maybeReenable_weight]⟩
  · rw [List.all_eq_true]
    intro c hc
    rcases cross_conns_cases A B choice coin reen c hc with
      ⟨a, ha, rfl⟩ | ⟨b, hb, rfl⟩ | ⟨a, ha, hfind, rfl⟩ | ⟨b, hb, hfind, rfl⟩
    · simp [ha]
    · simp [hb]
    · simp [maybeReenable_innov, hfind]
    · simp [maybeReenable_innov, hfind]
  · have hn : (cross A B choice coin reen).nodes =
        nodesOf ((cross A B choice coin reen).conns) := rfl
    rw [hn]
    ext x
    simp [nodesOf, List.mem_dedup]

/-! ## The (in,out)-pair invariant of genomes -/

theorem map_filterMap_sublist {α β γ : Type} (l : List α) (f : α → Option β)
    (key : α → γ) (keyb : β → γ)
    (hf : ∀ a ∈ l, ∀ b, f a = some b → keyb b = key a) :
    List.Sublist ((l.filterMap f).map keyb) (l.map key) := by
  induction l with
  | nil => simp
  | cons a l ih =>
      have ih2 := ih (fun x hx b hb => hf x (List.mem_cons_of_mem a hx) b hb)
      cases hfa : f a with
      | none =>
          rw [List.filterMap_cons_none hfa, List.map_cons]
          exact List.Sublist.cons (key a) ih2
      | some b =>
          rw [List.filterMap_cons_some hfa, List.map_cons, List.map_cons,
            hf a (List.mem_cons_self a l) b hfa]
          exact List.Sublist.cons₂ (key a) ih2

theorem seedGenome_WfPairs (nIn nOut : Nat) (w : Rat) :
    WfPairs (seedGenome nIn nOut w) := by
  unfold WfPairs seedGenome
  rw [List.map_flatMap]
  have hrw : ∀ i : Nat,
      ((List.range nOut).map (fun j =>
        (⟨i, nIn + j, w, true, i * nOut + j⟩ : ConnGene))).map pairOf =
      (List.range nOut).map (fun j => (i, nIn + j)) := by
    intro i
    rw [List.map_map]
    rfl
  simp only [hrw]
  rw [List.nodup_flatMap]
  constructor
  · intro i _
    refine List.Nodup.map ?_ (List.nodup_range nOut)
    intro j1 j2 hj
    have := (Prod.mk.injEq _ _ _ _).mp hj
    omega
  · have hne := List.nodup_range nIn
    refine List.Pairwise.imp ?_ hne
    intro i1 i2 hne12 x hx1 hx2
    rcases List.mem_map.mp hx1 with ⟨j1, _, hj1⟩
    rcases List.mem_map.mp hx2 with ⟨j2, _, hj2⟩
    rw [← hj1] at hj2
    have := (Prod.mk.injEq _ _ _ _).mp hj2
    exact hne12 this.1.symm

theorem addConnection_WfPairs (t : Tracker) (g : Genome) (p : Nat × Nat)
    (w : Rat) (hg : WfPairs g) : WfPairs (addConnection t g p w).2 := by
  unfold addConnection
  by_cases hc : g.connected p = true
  · rw [if_pos hc]
    exact hg
  · rw [if_neg hc]
    unfold WfPairs
    rw [List.map_cons, List.nodup_cons]
    refine ⟨?_, hg⟩
    intro hmem
    rcases List.mem_map.mp hmem with ⟨d, hd, hpd⟩
    have hcf : g.connected p = false := Bool.eq_false_iff.mpr hc
    unfold Genome.connected at hcf
    have hall := List.any_eq_false.mp hcf d hd
    have h1 : d.inNode = p.1 ∧ d.outNode = p.2 := by
      have := (Prod.mk.injEq _ _ _ _).mp hpd
      exact this
    simp [h1.1, h1.2] at hall

theorem addNode_WfPairs (t : Tracker) (g : Genome) (pick : Nat)
    (hg : WfPairs g)
    (hfresh : ∀ c ∈ g.conns, c.inNode ≠ t.nextNode ∧ c.outNode ≠ t.nextNode) :
    WfPairs (addNode t g pick).2 := by
  unfold addNode
  cases hget : g.conns.get? pick with
  | none => exact hg
  | some c =>
      dsimp only
      by_cases hen : c.enabled = false
      · rw [if_pos hen]
        exact hg
      · rw [if_neg hen]
        have hcmem : c ∈ g.conns := List.get?_mem hget
        unfold WfPairs
        have hpairs : (g.conns.map (fun d =>
            if d.innov == c.innov then { d with enabled := false } else d)).map
              pairOf = g.conns.map pairOf := by
          rw [List.map_map]
          refine List.map_congr_left ?_
          intro d _
          by_cases hdc : (d.innov == c.innov) = true
          · simp only [Function.comp, hdc, if_true]
            rfl
          · simp only [Function.comp, Bool.not_eq_true] at hdc
            simp only [Function.comp, hdc, Bool.false_eq_true, if_false]
        rw [List.map_cons, List.map_cons, hpairs, List.nodup_cons,
          List.nodup_cons]
        refine ⟨?_, ?_, hg⟩
        · intro hmem
          rcases List.mem_cons.mp hmem with heq | hmem2
          · have := (Prod.mk.injEq _ _ _ _).mp heq
            exact (hfresh c hcmem).1 this.1
          · rcases List.mem_map.mp hmem2 with ⟨d, hd, hpd⟩
            have := (Prod.mk.injEq _ _ _ _).mp hpd
            exact (hfresh d hd).2 this.2
        · intro hmem
          rcases List.mem_map.mp hmem with ⟨d, hd, hpd⟩
          have := (Prod.mk.injEq _ _ _ _).mp hpd
          exact (hfresh d hd).1 this.1

theorem cross_pair_preserving_A (A B : Genome) (choice coin reen : Nat → Bool)
    (hAB : ∀ ca ∈ A.conns, ∀ cb ∈ B.conns,
      (ca.innov = cb.innov ↔ pairOf ca = pairOf cb)) :
    ∀ a ∈ A.conns, ∀ b,
      (match B.findConn a.innov with
       | some cb => some (if choice a.innov then a else cb)
       | none =>
           inheritDisjoint A.fitness B.fitness (coin a.innov) (reen a.innov) a)
        = some b → pairOf b = pairOf a := by
  intro a ha b hb
  cases hfind : B.findConn a.innov with
  | some cb =>
      rw [hfind] at hb
      have hif : (if choice a.innov then a else cb) = b := Option.some.inj hb
      by_cases hch : choice a.innov = true
      · rw [← hif, if_pos hch]
      · rw [← hif, if_neg hch]
        have hinn : a.innov = cb.innov := (findConn_innov hfind).symm
        exact ((hAB a ha cb (findConn_mem hfind)).mp hinn).symm
  | none =>
      rw [hfind] at hb
      rw [inheritDisjoint_eq_some hb]
      exact maybeReenable_pairOf _ _

theorem cross_pair_preserving_B (A B : Genome) (coin reen : Nat → Bool) :
    ∀ b ∈ B.conns, ∀ c,
      (match A.findConn b.innov with
       | some _ => none
       | none =>
           inheritDisjoint B.fitness A.fitness (coin b.innov) (reen b.innov) b)
        = some c → pairOf c = pairOf b := by
  intro b _ c hc
  cases hfind : A.findConn b.innov with
  | some cb =>
      rw [hfind] at hc
      exact Option.noConfusion hc
  | none =>
      rw [hfind] at hc
      rw [inheritDisjoint_eq_some hc]
      exact maybeReenable_pairOf _ _

theorem cross_WfPairs (A B : Genome) (choice coin reen : Nat → Bool)
    (hA : WfPairs A) (hB : WfPairs B)
    (hAB : ∀ ca ∈ A.conns, ∀ cb ∈ B.conns,
      (ca.innov = cb.innov ↔ pairOf ca = pairOf cb)) :
    WfPairs (cross A B choice coin reen) := by
  unfold WfPairs
  have hconns : (cross A B choice coin reen).conns =
      A.conns.filterMap (fun a =>
        match B.findConn a.innov with
        | some cb => some (if choice a.innov then a else cb)
        | none =>
            inheritDisjoint A.fitness B.fitness (coin a.innov) (reen a.innov) a) ++
      B.conns.filterMap (fun b =>
        match A.findConn b.innov with
        | some _ => none
        | none =>
            inheritDisjoint B.fitness A.fitness (coin b.innov) (reen b.innov) b) :=
    rfl
  rw [hconns, List.map_append, List.nodup_append]
  have hsubA := map_filterMap_sublist A.conns _ pairOf pairOf
    (cross_pair_preserving_A A B choice coin reen hAB)
  have hsubB := map_filterMap_sublist B.conns _ pairOf pairOf
    (cross_pair_preserving_B A B coin reen)
  refine ⟨List.Nodup.sublist hsubA hA, List.Nodup.sublist hsubB hB, ?_⟩
  intro x hxA hxB
  have hxA2 : x ∈ A.conns.map pairOf := hsubA.subset hxA
  rcases List.mem_map.mp hxA2 with ⟨a, ha, hpa⟩
  rcases List.mem_map.mp hxB with ⟨cb2, hcb2, hpb2⟩
  rcases List.mem_filterMap.mp hcb2 with ⟨b, hb, hfb⟩
  cases hfind : A.findConn b.innov with
  | some cb =>
      rw [hfind] at hfb
      exact Option.noConfusion hfb
  | none =>
      rw [hfind] at hfb
      have hpcb : pairOf cb2 = pairOf b := by
        rw [inheritDisjoint_eq_some hfb]
        exact maybeReenable_pairOf _ _
      have hpair : pairOf a = pairOf b := by
        rw [hpa, ← hpcb, hpb2]
      have hinn : a.innov = b.innov := (hAB a ha b hb).mpr hpair
      have hsome : (A.findConn b.innov).isSome := by
        rw [← hinn]
        exact findConn_isSome_of_mem ha
      rw [hfind] at hsome
      exact Bool.noConfusion hsome

theorem toggleEnable_innovs (t : Tracker) (g : Genome) (n : Nat) :
    (toggleEnable t g n).2.conns.map (fun c => c.innov) =
      g.conns.map (fun c => c.innov) := by
  unfold toggleEnable
  rw [List.map_map]
  refine List.map_congr_left ?_
  intro d _
  by_cases hdc : (d.innov == n) = true
  · simp only [Function.comp, hdc, if_true]
  · simp only [Bool.not_eq_true] at hdc
    simp only [Function.comp, hdc, Bool.false_eq_true, if_false]

theorem toggleEnable_WfPairs (t : Tracker) (g : Genome) (n : Nat)
    (hg : WfPairs g) : WfPairs (toggleEnable t g n).2 := by
  unfold WfPairs toggleEnable
  have hpairs : (g.conns.map (fun c =>
      if c.innov == n then { c with enabled := !c.enabled } else c)).map pairOf =
      g.conns.map pairOf := by
    rw [List.map_map]
    refine List.map_congr_left ?_
    intro d _
    by_cases hdc : (d.innov == n) = true
    · simp only [Function.comp, hdc, if_true]
      rfl
    · simp only [Bool.not_eq_true] at hdc
      simp only [Function.comp, hdc, Bool.false_eq_true, if_false]
  rw [hpairs]
  exact hg

/-- C6: in every genome produced by any operation — initial seeding,
add-connection, add-node, toggle-enable, crossover — no two connection genes
share the same (in,out) pair; and toggling a connection's enabled flag never
allocates a new innovation number (the tracker and all innovation numbers are
unchanged). -/
theorem genome_pair_invariant (t : Tracker) (g A B : Genome) (p : Nat × Nat)
    (w w2 : Rat) (pick n nIn nOut : Nat) (choice coin reen : Nat → Bool)
    (hg : WfPairs g)
    (hfresh : ∀ c ∈ g.conns, c.inNode ≠ t.nextNode ∧ c.outNode ≠ t.nextNode)
    (hA : WfPairs A) (hB : WfPairs B)
    (hAB : ∀ ca ∈ A.conns, ∀ cb ∈ B.conns,
      (ca.innov = cb.innov ↔ pairOf ca = pairOf cb)) :
    WfPairs (seedGenome nIn nOut w2) ∧
    WfPairs (addConnection t g p w).2 ∧
    WfPairs (addNode t g pick).2 ∧
    WfPairs (cross A B choice coin reen) ∧
    WfPairs (toggleEnable t g n).2 ∧
    (toggleEnable t g n).1 = t ∧
    (toggleEnable t g n).2.conns.map (fun c => c.innov) =
      g.conns.map (fun c => c.innov) :=
  ⟨seedGenome_WfPairs nIn nOut w2,
   addConnection_WfPairs t g p w hg,
   addNode_WfPairs t g pick hg hfresh,
   cross_WfPairs A B choice coin reen hA hB hAB,
   toggleEnable_WfPairs t g n hg,
   rfl,
   toggleEnable_innovs t g n⟩

/-- Witness for C6: a seed genome with a fresh tracker node counter, an
unconnected pair for add-connection, two structurally consistent parents for
crossover. -/
theorem genome_pair_invariant_witness :
    WfPairs (seedGenome 2 2 1) ∧
    WfPairs (addConnection ⟨[((0, 1), 0)], 1, 5⟩ (seedGenome 1 1 1) (1, 0) 2).2 ∧
    WfPairs (addNode ⟨[((0, 1), 0)], 1, 5⟩ (seedGenome 1 1 1) 0).2 ∧
    WfPairs (cross (seedGenome 1 1 1) (seedGenome 1 1 2)
      (fun _ => true) (fun _ => false) (fun _ => true)) ∧
    WfPairs (toggleEnable ⟨[((0, 1), 0)], 1, 5⟩ (seedGenome 1 1 1) 0).2 ∧
    (toggleEnable ⟨[((0, 1), 0)], 1, 5⟩ (seedGenome 1 1 1) 0).1 =
      ⟨[((0, 1), 0)], 1, 5⟩ ∧
    (toggleEnable ⟨[((0, 1), 0)], 1, 5⟩ (seedGenome 1 1 1) 0).2.conns.map
      (fun c => c.innov) = (seedGenome 1 1 1).conns.map (fun c => c.innov) :=
  genome_pair_invariant ⟨[((0, 1), 0)], 1, 5⟩ (seedGenome 1 1 1)
    (seedGenome 1 1 1) (seedGenome 1 1 2) (1, 0) 2 1 0 0 2 2
    (fun _ => true) (fun _ => false) (fun _ => true)
    (by decide) (by decide) (by decide) (by decide) (by decide)

/-! ## Offspring-count allocation sums to the target -/

theorem sum_map_add {α M : Type} [AddCommMonoid M] (l : List α) (f g : α → M) :
    (l.map (fun x => f x + g x)).sum = (l.map f).sum + (l.map g).sum := by
  induction l with
  | nil => simp
  | cons a l ih =>
      simp only [List.map_cons, List.sum_cons, ih]
      rw [add_add_add_comm]

theorem sum_range_getD (l : List Nat) :
    ((List.range l.length).map (fun i => l.getD i 0)).sum = l.sum := by
  induction l with
  | nil => rfl
  | cons a l ih =>
      rw [List.length_cons, List.range_succ_eq_map, List.map_cons, List.map_map]
      have hcomp : ((fun i => (a :: l).getD i 0) ∘ (· + 1)) =
          fun i => l.getD i 0 := by
        funext i
        simp [List.getD_cons_succ]
      rw [hcomp, List.sum_cons, ih]
      simp [List.getD_cons_zero]

theorem indicator_single_sum (k a : Nat) :
    ((List.range k).map (fun i => if i = a then (1 : Nat) else 0)).sum =
      if a < k then 1 else 0 := by
  induction k with
  | zero => simp
  | succ k ih =>
      rw [List.range_succ, List.map_append, List.sum_append, ih]
      simp only [List.map_cons, List.map_nil, List.sum_cons, List.sum_nil]
      split_ifs <;> omega

theorem indicator_mem_sum (k : Nat) (t : List Nat) (ht : t.Nodup)
    (hb : ∀ x ∈ t, x < k) :
    ((List.range k).map (fun i => if i ∈ t then (1 : Nat) else 0)).sum =
      t.length := by
  induction t with
  | nil => simp
  | cons a t ih =>
      have ha : a ∉ t := (List.nodup_cons.mp ht).1
      have ht2 := (List.nodup_cons.mp ht).2
      have hb2 : ∀ x ∈ t, x < k := fun x hx => hb x (List.mem_cons_of_mem a hx)
      have hak : a < k := hb a (List.mem_cons_self a t)
      have hcong : ∀ i ∈ List.range k,
          (if i ∈ a :: t then (1 : Nat) else 0) =
          (if i = a then 1 else 0) + (if i ∈ t then 1 else 0) := by
        intro i _
        by_cases h1 : i = a
        · subst h1
          simp [ha]
        · by_cases h2 : i ∈ t
          · simp [List.mem_cons, h1, h2]
          · simp [List.mem_cons, h1, h2]
      rw [List.map_congr_left hcong, sum_map_add, indicator_single_sum,
        if_pos hak, ih ht2 hb2]
      simp [List.length_cons]
      omega

theorem bump_sum (k : Nat) (q : List Nat) (top : List Nat) (hq : q.length = k)
    (ht : top.Nodup) (hb : ∀ x ∈ top, x < k) :
    ((List.range k).map (fun i => q.getD i 0 + if i ∈ top then 1 else 0)).sum
      = q.sum + top.length := by
  subst hq
  rw [sum_map_add, sum_range_getD, indicator_mem_sum q.length top ht hb]

theorem floorShare_cast_le (target : Nat) (S f : Rat) (hf : 0 ≤ f)
    (hS : 0 < S) :
    ((floorShare target S f : Nat) : Rat) ≤ (target : Rat) * f / S := by
  have hx : (0 : Rat) ≤ (target : Rat) * f / S :=
    div_nonneg (mul_nonneg (Nat.cast_nonneg target) hf) hS.le
  have h1 : ((Int.floor ((target : Rat) * f / S)).toNat : Int) =
      Int.floor ((target : Rat) * f / S) :=
    Int.toNat_of_nonneg (Int.floor_nonneg.mpr hx)
  have h2 := Int.floor_le ((target : Rat) * f / S)
  rw [← h1] at h2
  unfold floorShare
  exact_mod_cast h2

theorem le_floorShare_cast_add_one (target : Nat) (S f : Rat) (hf : 0 ≤ f)
    (hS : 0 < S) :
    (target : Rat) * f / S ≤ ((floorShare target S f : Nat) : Rat) + 1 := by
  have hx : (0 : Rat) ≤ (target : Rat) * f / S :=
    div_nonneg (mul_nonneg (Nat.cast_nonneg target) hf) hS.le
  have h1 : ((Int.floor ((target : Rat) * f / S)).toNat : Int) =
      Int.floor ((target : Rat) * f / S) :=
    Int.toNat_of_nonneg (Int.floor_nonneg.mpr hx)
  have h2 := Int.lt_floor_add_one ((target : Rat) * f / S)
  rw [← h1] at h2
  unfold floorShare
  exact_mod_cast h2.le

theorem sum_shares (target : Nat) (w : List Rat) (hS : w.sum ≠ 0) :
    (w.map (fun f => (target : Rat) * f / w.sum)).sum = target := by
  have hmap : w.map (fun f => (target : Rat) * f / w.sum) =
      w.map (fun f => ((target : Rat) / w.sum) * f) :=
    List.map_congr_left (fun f _ => by ring)
  rw [hmap, List.sum_map_mul_left]
  simp only [List.map_id']
  exact div_mul_cancel₀ _ hS

theorem cast_q_sum (target : Nat) (w : List Rat) :
    (((w.map (floorShare target w.sum)).sum : Nat) : Rat) =
      (w.map (fun f => ((floorShare target w.sum f : Nat) : Rat))).sum := by
  rw [Nat.cast_list_sum, List.map_map]
  rfl

theorem sum_map_one (w : List Rat) :
    (w.map (fun _ => (1 : Rat))).sum = (w.length : Rat) := by
  induction w with
  | nil => simp
  | cons a l ih =>
      simp only [List.map_cons, List.sum_cons, ih, List.length_cons]
      push_cast
      ring

theorem q_sum_le (target : Nat) (w : List Rat) (hw : ∀ f ∈ w, 0 ≤ f)
    (hS : 0 < w.sum) :
    (w.map (floorShare target w.sum)).sum ≤ target := by
  have hle : (w.map (fun f => ((floorShare target w.sum f : Nat) : Rat))).sum ≤
      (w.map (fun f => (target : Rat) * f / w.sum)).sum :=
    List.sum_le_sum (fun f hf => floorShare_cast_le target w.sum f (hw f hf) hS)
  rw [sum_shares target w hS.ne'] at hle
  rw [← cast_q_sum] at hle
  exact_mod_cast hle

theorem target_le_q_sum_add (target : Nat) (w : List Rat)
    (hw : ∀ f ∈ w, 0 ≤ f) (hS : 0 < w.sum) :
    target ≤ (w.map (floorShare target w.sum)).sum + w.length := by
  have hle : (w.map (fun f => (target : Rat) * f / w.sum)).sum ≤
      (w.map (fun f => ((floorShare target w.sum f : Nat) : Rat) + 1)).sum :=
    List.sum_le_sum (fun f hf =>
      le_floorShare_cast_add_one target w.sum f (hw f hf) hS)
  rw [sum_shares target w hS.ne', sum_map_add, sum_map_one, ← cast_q_sum]
    at hle
  exact_mod_cast hle

theorem allocateCore_sum (w : List Rat) (target : Nat)
    (hw : ∀ f ∈ w, 0 ≤ f) (hS : 0 < w.sum) :
    (allocateCore w target).sum = target := by
  have hq_le := q_sum_le target w hw hS
  have hle_q := target_le_q_sum_add target w hw hS
  have hperm := List.mergeSort_perm (List.range w.length) (fun i j =>
    decide (remainderShare target w.sum (w.getD j 0) ≤
            remainderShare target w.sum (w.getD i 0)))
  have hordnd : ((List.range w.length).mergeSort (fun i j =>
      decide (remainderShare target w.sum (w.getD j 0) ≤
              remainderShare target w.sum (w.getD i 0)))).Nodup :=
    hperm.nodup_iff.mpr (List.nodup_range _)
  have htopnd : (((List.range w.length).mergeSort (fun i j =>
      decide (remainderShare target w.sum (w.getD j 0) ≤
              remainderShare target w.sum (w.getD i 0)))).take
        (target - (w.map (floorShare target w.sum)).sum)).Nodup :=
    List.Nodup.sublist (List.take_sublist _ _) hordnd
  have htopmem : ∀ x ∈ ((List.range w.length).mergeSort (fun i j =>
      decide (remainderShare target w.sum (w.getD j 0) ≤
              remainderShare target w.sum (w.getD i 0)))).take
        (target - (w.map (floorShare target w.sum)).sum), x < w.length := by
    intro x hx
    have hx2 := (List.take_sublist _ _).subset hx
    exact List.mem_range.mp (hperm.mem_iff.mp hx2)
  have htoplen : (((List.range w.length).mergeSort (fun i j =>
      decide (remainderShare target w.sum (w.getD j 0) ≤
              remainderShare target w.sum (w.getD i 0)))).take
        (target - (w.map (floorShare target w.sum)).sum)).length =
      target - (w.map (floorShare target w.sum)).sum := by
    rw [List.length_take, hperm.length_eq, List.length_range]
    omega
  have hmain := bump_sum w.length (w.map (floorShare target w.sum))
    (((List.range w.length).mergeSort (fun i j =>
      decide (remainderShare target w.sum (w.getD j 0) ≤
              remainderShare target w.sum (w.getD i 0)))).take
        (target - (w.map (floorShare target w.sum)).sum))
    (List.length_map _ _) htopnd htopmem
  rw [htoplen] at hmain
  show ((List.range w.length).map (fun i =>
      (w.map (floorShare target w.sum)).getD i 0 +
      if i ∈ ((List.range w.length).mergeSort (fun i j =>
        decide (remainderShare target w.sum (w.getD j 0) ≤
                remainderShare target w.sum (w.getD i 0)))).take
          (target - (w.map (floorShare target w.sum)).sum)
      then 1 else 0)).sum = target
  rw [hmain]
  omega

/-- C2: for every distribution of species' adjusted fitness sums after
fitness sharing (nonnegative, including the all-zero distribution) over at
least one species, the offspring counts allocated by largest-remainder
reconciliation sum exactly to the configured target population size, one
count per species. -/
theorem allocate_sum_eq_target (fits : List Rat) (target : Nat)
    (hne : fits ≠ []) (hnn : ∀ f ∈ fits, 0 ≤ f) :
    (allocate fits target).sum = target ∧
    (allocate fits target).length = fits.length := by
  constructor
  · unfold allocate
    by_cases h0 : fits.sum = 0
    · rw [if_pos h0]
      apply allocateCore_sum
      · intro f hf
        rcases List.mem_map.mp hf with ⟨x, _, rfl⟩
        exact zero_le_one
      · rw [sum_map_one]
        have hpos : 0 < fits.length := List.length_pos.mpr hne
        exact_mod_cast hpos
    · rw [if_neg h0]
      exact allocateCore_sum fits target hnn
        (lt_of_le_of_ne (List.sum_nonneg hnn) (Ne.symm h0))
  · unfold allocate allocateCore
    by_cases h0 : fits.sum = 0 <;> simp [h0]

/-- Witness for C2: the all-zero distribution over three species still
receives exactly the 10 offspring. -/
theorem allocate_sum_eq_target_witness :
    (allocate [0, 0, 0] 10).sum = 10 ∧ (allocate [0, 0, 0] 10).length = 3 :=
  allocate_sum_eq_target [0, 0, 0] 10 (by decide) (by decide)
